import Mathlib

/-!
Verification development for the nearby-school-data-extractor repository.

The core under study is the response-normalization pipeline of
src/services/geminiService.ts (function parseJsonFromGeminiResponse and the
post-parse mapping/filtering inside fetchSchoolsNearAddress) together with
the CSV serialization of src/utils/csvExporter.ts (function convertToCSV).

Strings are modelled as `List Char` (JS strings are sequences of UTF-16 code
units; every concrete input considered here is within the BMP, where code
units and Unicode scalar values coincide).
-/

namespace SchoolExtractor

/-- The backtick character, written via its code point. -/
def btick : Char := Char.ofNat 96

/-- The left-brace character, written via its code point. -/
def lbrace : Char := Char.ofNat 123

/-- The right-brace character, written via its code point. -/
def rbrace : Char := Char.ofNat 125

/-- JavaScript regex `\s` / `String.prototype.trim` whitespace class:
space, tab, LF, VT, FF, CR, NBSP, line/paragraph separators, BOM and the
Unicode space separators. -/
def jsWs (c : Char) : Bool :=
  c == ' ' || c == '\t' || c == '\n' || c == Char.ofNat 11 || c == Char.ofNat 12 ||
  c == '\r' || c == Char.ofNat 160 || c == Char.ofNat 5760 ||
  (8192 ≤ c.toNat && c.toNat ≤ 8202) ||
  c == Char.ofNat 8232 || c == Char.ofNat 8233 || c == Char.ofNat 8239 ||
  c == Char.ofNat 8287 || c == Char.ofNat 12288 || c == Char.ofNat 65279

/-- Regex class `[^\x00-\x7F]`: any non-ASCII code unit. -/
def nonAscii (c : Char) : Bool := 127 < c.toNat

/-- Regex `\w` word character (no `u` flag): ASCII letters, digits, underscore.
Used for the `\b` boundaries in the repair regex. -/
def wordChar (c : Char) : Bool :=
  ('a' ≤ c && c ≤ 'z') || ('A' ≤ c && c ≤ 'Z') || ('0' ≤ c && c ≤ '9') || c == '_'

/-- ASCII decimal digit, regex `\d` (code points 0x30 to 0x39). -/
def digitChar (c : Char) : Bool := 48 ≤ c.toNat && c.toNat ≤ 57

/-- Drop the trailing run of JS whitespace. -/
def rtrimWs (l : List Char) : List Char := (l.reverse.dropWhile jsWs).reverse

/-- JavaScript `String.prototype.trim`: drop leading and trailing whitespace. -/
def jsTrim (l : List Char) : List Char := rtrimWs (l.dropWhile jsWs)

/-!
## Fence stripping

Models the anchored regex `/^```(?:json)?\s*\n?(.*?)\n?\s*```$/s` of
parseJsonFromGeminiResponse together with the guard
`if (fenceMatch && fenceMatch[1]) jsonStr = fenceMatch[1].trim()`.

With the `s` flag the lazy group can absorb anything, so the pattern matches
iff the text starts with three backticks (optionally followed by `json`,
tried greedily first) and ends with three backticks; the engine fixes the
leading `\s*\n?` greedily (all leading whitespace) and then takes the
shortest group, which leaves the longest tail of the form `\n?\s*` + three
backticks.  The captured group is therefore the text between the fences with
the whitespace adjacent to the fences removed.
-/

/-- Does the list start with three backticks? -/
def startsWith3Ticks (l : List Char) : Bool :=
  match l with
  | a :: b :: c :: _ => a == btick && b == btick && c == btick
  | _ => false

/-- Does the list start with the four characters of `json`? -/
def startsWithJson (l : List Char) : Bool :=
  match l with
  | a :: b :: c :: d :: _ => a == 'j' && b == 's' && c == 'o' && d == 'n'
  | _ => false

/-- Does the list end with three backticks?  The anchored fence regex can
only match a trimmed text that both starts and ends with them. -/
def endsWith3Ticks (l : List Char) : Bool :=
  match l.reverse with
  | a :: b :: c :: _ => a == btick && b == btick && c == btick
  | _ => false

/-- Remove a final run of three backticks, if present. -/
def stripEnd3Ticks (l : List Char) : Option (List Char) :=
  match l.reverse with
  | a :: b :: c :: r =>
    if a == btick && b == btick && c == btick then some r.reverse else none
  | _ => none

/-- Match the part `\s*\n?(.*?)\n?\s*` + three backticks + `$` of the fence
regex against `r`, returning the captured lazy group. -/
def fenceTail (r : List Char) : Option (List Char) :=
  match stripEnd3Ticks (r.dropWhile jsWs) with
  | some core => some (rtrimWs core)
  | none => none

/-- The captured group of the fence regex on the (already trimmed) text, or
`none` when the regex does not match. -/
def fenceGroup (s : List Char) : Option (List Char) :=
  if startsWith3Ticks s then
    let r := s.drop 3
    if startsWithJson r then
      match fenceTail (r.drop 4) with
      | some g => some g
      | none => fenceTail r
    else fenceTail r
  else none

/-- Step 1 of parseJsonFromGeminiResponse: replace the text by the trimmed
captured group when the fence regex matches with a non-empty group. -/
def fenceStrip (s : List Char) : List Char :=
  match fenceGroup s with
  | some g => if g == [] then s else jsTrim g
  | none => s

/-!
## Stray-token repair

Models step 2 of parseJsonFromGeminiResponse: the global replace

  jsonStr.replace(/(\b(?:true|false|null)\b|\d+(?:\.\d+)?(?:[eE][+-]?\d+)?|
                   "(?:\\.|[^"\\])*")\s*([^\x00-\x7F]+)\s*(?=[,}\]])/g, '$1')

iterated by a do/while loop until a fixed point is reached.  A match is a
JSON token (literal, number or string, captured as group 1) followed by
whitespace, a non-empty run of non-ASCII characters, more whitespace, and a
lookahead for a structural character; the match is replaced by group 1
alone.  Scanning is left to right, resuming after each match, as the JS
global replace does.  The word boundary before a literal depends on the
preceding character of the original text, threaded through as `p`.
-/

/-- Strip a literal word from the front of a list. -/
def stripWord : List Char → List Char → Option (List Char)
  | [], s => some s
  | _ :: _, [] => none
  | w :: ws, c :: cs => if c == w then stripWord ws cs else none

/-- The `\b` assertion before a literal whose first character is a word
character: holds at the start of the text or after a non-word character. -/
def boundaryBefore (p : Option Char) : Bool :=
  match p with
  | none => true
  | some c => !(wordChar c)

/-- The `\b` assertion after a literal whose last character is a word
character: holds at the end of the text or before a non-word character. -/
def boundaryAfter (l : List Char) : Bool :=
  match l with
  | [] => true
  | c :: _ => !(wordChar c)

/-- One literal alternative of group 1 with its two `\b` assertions. -/
def tryWord (p : Option Char) (w s : List Char) : Option (List Char × List Char) :=
  match stripWord w s with
  | some r => if boundaryBefore p && boundaryAfter r then some (w, r) else none
  | none => none

/-- Alternative 1 of group 1: `\b(?:true|false|null)\b`. -/
def matchLit (p : Option Char) (s : List Char) : Option (List Char × List Char) :=
  (tryWord p "true".data s).orElse fun _ =>
    (tryWord p "false".data s).orElse fun _ => tryWord p "null".data s

/-- The optional fraction `(?:\.\d+)?` of the number token: the consumed
part and the rest. -/
def takeFrac (r : List Char) : List Char × List Char :=
  match r with
  | c :: rest =>
    if c == '.' then
      let fd := rest.takeWhile digitChar
      if fd == [] then ([], r) else (c :: fd, rest.dropWhile digitChar)
    else ([], r)
  | [] => ([], r)

/-- The optional exponent `(?:[eE][+-]?\d+)?` of the number token: the
consumed part and the rest.  A sign with no following digit is given back
entirely, as the regex backtracking would. -/
def takeExp (r : List Char) : List Char × List Char :=
  match r with
  | c :: rest =>
    if c == 'e' || c == 'E' then
      match rest with
      | c2 :: rest2 =>
        if c2 == '+' || c2 == '-' then
          let ed := rest2.takeWhile digitChar
          if ed == [] then ([], r) else (c :: c2 :: ed, rest2.dropWhile digitChar)
        else
          let ed := rest.takeWhile digitChar
          if ed == [] then ([], r) else (c :: ed, rest.dropWhile digitChar)
      | [] => ([], r)
    else ([], r)
  | [] => ([], r)

/-- Alternative 2 of group 1: `\d+(?:\.\d+)?(?:[eE][+-]?\d+)?`, greedy.
If this token matches but the rest of the pattern fails, every character a
backtrack would give back is a digit, dot or exponent mark — ASCII and
non-whitespace — so no shorter parse can let the tail succeed and
committing to the greedy parse is faithful. -/
def matchNum (s : List Char) : Option (List Char × List Char) :=
  let d := s.takeWhile digitChar
  if d == [] then none else
  let fr := takeFrac (s.dropWhile digitChar)
  let ex := takeExp fr.2
  some (d ++ fr.1 ++ ex.1, ex.2)

/-- The line terminators that `.` does not match in a regex without the `s`
flag: LF, CR, and the Unicode line and paragraph separators. -/
def lineTerm (c : Char) : Bool :=
  c.toNat == 10 || c.toNat == 13 || c.toNat == 8232 || c.toNat == 8233

/-- Body scan of alternative 3: after the opening quote, `(?:\\.|[^"\\])*"`.
The star is deterministic: a quote must end it; a backslash consumes the
next character via `\\.`, whose dot excludes line terminators because the
repair regex carries only the `g` flag, no `s` — so a backslash followed by
a line terminator fails the whole string alternative (the class `[^"\\]`
cannot take the backslash either, and backtracking the star's earlier
iterations never puts a closing quote at the stop position); anything else
is consumed as itself. -/
def matchStrGo : List Char → Option (List Char × List Char)
  | [] => none
  | c :: rest =>
    if c == '"' then some (['"'], rest)
    else if c == '\\' then
      match rest with
      | c2 :: rest2 =>
        if lineTerm c2 then none
        else (matchStrGo rest2).map fun pr => (c :: c2 :: pr.1, pr.2)
      | [] => none
    else (matchStrGo rest).map fun pr => (c :: pr.1, pr.2)

/-- Alternative 3 of group 1: `"(?:\\.|[^"\\])*"`. -/
def matchStr (s : List Char) : Option (List Char × List Char) :=
  match s with
  | c :: r =>
    if c == '"' then (matchStrGo r).map fun pr => (c :: pr.1, pr.2) else none
  | [] => none

/-- Group 1 of the repair regex: the three alternatives in order.  Their
possible first characters are disjoint, so ordered choice is exact. -/
def matchGroup1 (p : Option Char) (s : List Char) : Option (List Char × List Char) :=
  (matchLit p s).orElse fun _ => (matchNum s).orElse fun _ => matchStr s

/-- The structural characters of the lookahead `(?=[,}\]])`. -/
def structChar (c : Char) : Bool := c == ',' || c == rbrace || c == ']'

/-- Check one candidate decomposition of the tail `\s*([^\x00-\x7F]+)\s*`
followed by the lookahead: `i` whitespace characters, then `n` non-ASCII
characters, then a maximal whitespace run (a shorter run would put a
whitespace character under the lookahead, which cannot match), then a
structural character.  Returns the number of characters consumed. -/
def tailCheck (r : List Char) (i n : Nat) : Option Nat :=
  let after2 := r.drop (i + n)
  let w2 := (after2.takeWhile jsWs).length
  match (after2.drop w2).head? with
  | some c => if structChar c then some (i + n + w2) else none
  | none => none

/-- Backtracking of the greedy `[^\x00-\x7F]+`: candidate lengths from the
maximal run down to 1. -/
def loopN (r : List Char) (i : Nat) : Nat → Option Nat
  | 0 => none
  | n + 1 =>
    match tailCheck r i (n + 1) with
    | some t => some t
    | none => loopN r i n

/-- Backtracking of the greedy leading `\s*` (the regex writes `\s*\n?`, but
that denotes the same set of whitespace runs): candidate lengths from the
maximal whitespace run down to 0. -/
def loopW1 (r : List Char) : Nat → Option Nat
  | 0 => loopN r 0 ((r.takeWhile nonAscii).length)
  | i + 1 =>
    match loopN r (i + 1) (((r.drop (i + 1)).takeWhile nonAscii).length) with
    | some t => some t
    | none => loopW1 r i

/-- Match the tail `\s*([^\x00-\x7F]+)\s*(?=[,}\]])` of the repair regex at
the front of `r`, returning how many characters the match consumes (the
lookahead consumes nothing). -/
def matchTail (r : List Char) : Option Nat := loopW1 r ((r.takeWhile jsWs).length)

/-- Try the whole repair regex at the current position (`p` is the previous
character of the text, for `\b`).  On success, returns group 1 and the total
length of the matched region. -/
def tryMatchAt (p : Option Char) (s : List Char) : Option (List Char × Nat) :=
  match matchGroup1 p s with
  | some (g1, rest) =>
    match matchTail rest with
    | some t => some (g1, g1.length + t)
    | none => none
  | none => none

/-- One global replace pass, scanning left to right: at each position try
the regex; on a match emit group 1 and resume after the matched region,
otherwise copy the character.  Fuel is the remaining length. -/
def replacePassAux : Nat → Option Char → List Char → List Char
  | 0, _, s => s
  | _ + 1, _, [] => []
  | f + 1, p, c :: rest =>
    match tryMatchAt p (c :: rest) with
    | some (g1, t) =>
      g1 ++ replacePassAux f (((c :: rest).take t).getLast?) ((c :: rest).drop t)
    | none => c :: replacePassAux f (some c) rest

/-- One pass of `jsonStr.replace(..., '$1')`. -/
def replacePass (s : List Char) : List Char := replacePassAux s.length none s

/-- The do/while loop of the repair: re-run the replace until the text no
longer changes.  Each changing pass removes at least one character, so
`length + 1` rounds of fuel always reach the fixed point. -/
def repairAux : Nat → List Char → List Char
  | 0, s => s
  | f + 1, s =>
    let s' := replacePass s
    if s' == s then s else repairAux f s'

/-- Step 2 of parseJsonFromGeminiResponse: the clean-until-stable repair. -/
def strayRepair (s : List Char) : List Char := repairAux (s.length + 1) s

/-!
## JSON values and JSON.parse

JSON numbers are modelled exactly as scaled decimals: a number literal with
mantissa `m` and decimal exponent denotes `mant / 10 ^ fexp` after folding a
non-negative net exponent into the mantissa.  The claims only compare such
numbers for sign and integrality and print integral ones, which this
representation captures exactly (JS stores IEEE doubles, but every value
exercised here is an integer far below 2^53).
-/

/-- A parsed JSON number: the rational `mant / 10 ^ fexp`. -/
structure JNum where
  mant : Int
  fexp : Nat
  deriving DecidableEq

/-- A JSON value as produced by `JSON.parse`.  Object fields keep source
order and may contain duplicate keys; property lookup takes the last
occurrence, as JS object literal construction does. -/
inductive JsonVal where
  | null
  | bool (b : Bool)
  | num (q : JNum)
  | str (s : List Char)
  | arr (elems : List JsonVal)
  | obj (fields : List (List Char × JsonVal))

/-- JSON (not JS-regex) whitespace: space, tab, line feed, carriage return. -/
def jsonWs (c : Char) : Bool :=
  c.toNat == 32 || c.toNat == 9 || c.toNat == 10 || c.toNat == 13

/-- Value of a hexadecimal digit, by code point: decimal digits, then the
lowercase and uppercase letter ranges. -/
def hexVal (c : Char) : Option Nat :=
  let n := c.toNat
  if 48 ≤ n && n ≤ 57 then some (n - 48)
  else if 97 ≤ n && n ≤ 102 then some (n - 87)
  else if 65 ≤ n && n ≤ 70 then some (n - 55)
  else none

/-- JSON string body after the opening quote: unescaped characters must be
at least 0x20; escapes are the eight simple ones plus `\uXXXX` (a lone
surrogate value is not a Unicode scalar and falls back to NUL, a corner no
input here reaches).  Returns the decoded content and the text after the
closing quote. -/
def parseStrLit : Nat → List Char → Option (List Char × List Char)
  | 0, _ => none
  | _ + 1, [] => none
  | f + 1, c :: rest =>
    if c == '"' then some ([], rest)
    else if c == '\\' then
      match rest with
      | c2 :: rest2 =>
        if c2 == '"' || c2 == '\\' || c2 == '/' then
          (parseStrLit f rest2).map fun pr => (c2 :: pr.1, pr.2)
        else if c2 == 'b' then
          (parseStrLit f rest2).map fun pr => (Char.ofNat 8 :: pr.1, pr.2)
        else if c2 == 'f' then
          (parseStrLit f rest2).map fun pr => (Char.ofNat 12 :: pr.1, pr.2)
        else if c2 == 'n' then
          (parseStrLit f rest2).map fun pr => ('\n' :: pr.1, pr.2)
        else if c2 == 'r' then
          (parseStrLit f rest2).map fun pr => ('\r' :: pr.1, pr.2)
        else if c2 == 't' then
          (parseStrLit f rest2).map fun pr => ('\t' :: pr.1, pr.2)
        else if c2 == 'u' then
          match rest2 with
          | h1 :: h2 :: h3 :: h4 :: rest3 =>
            match hexVal h1, hexVal h2, hexVal h3, hexVal h4 with
            | some a, some b, some cc, some d =>
              (parseStrLit f rest3).map fun pr =>
                (Char.ofNat (a * 4096 + b * 256 + cc * 16 + d) :: pr.1, pr.2)
            | _, _, _, _ => none
          | _ => none
        else none
      | [] => none
    else if c.toNat < 32 then none
    else (parseStrLit f rest).map fun pr => (c :: pr.1, pr.2)

/-- Decimal digits to a natural number, most significant first. -/
def digitsToNatAux : List Char → Nat → Nat
  | [], acc => acc
  | c :: cs, acc => digitsToNatAux cs (acc * 10 + (c.toNat - 48))

/-- Decimal digits to a natural number. -/
def digitsToNat (l : List Char) : Nat := digitsToNatAux l 0

/-- JSON number literal: `-? (0 | [1-9][0-9]*) (. [0-9]+)? ([eE][+-]?[0-9]+)?`.
A malformed fraction or exponent is left unconsumed; the character then
fails the surrounding grammar, exactly as in a strict JSON parser. -/
def parseNumLit (s : List Char) : Option (JNum × List Char) :=
  let (neg, s1) : Bool × List Char :=
    match s with
    | c :: rest => if c == '-' then (true, rest) else (false, s)
    | [] => (false, s)
  let ipart : Option (List Char × List Char) :=
    match s1 with
    | c :: rest =>
      if c == '0' then some (['0'], rest)
      else if digitChar c then some (s1.takeWhile digitChar, s1.dropWhile digitChar)
      else none
    | [] => none
  match ipart with
  | none => none
  | some (ids, r1) =>
    let frp : List Char × List Char :=
      match r1 with
      | c :: rest =>
        if c == '.' then
          let fd := rest.takeWhile digitChar
          if fd == [] then ([], r1) else (fd, rest.dropWhile digitChar)
        else ([], r1)
      | [] => ([], r1)
    let exp : Int × List Char :=
      match frp.2 with
      | c :: rest =>
        if c == 'e' || c == 'E' then
          match rest with
          | c2 :: rest2 =>
            if c2 == '-' then
              let ed := rest2.takeWhile digitChar
              if ed == [] then (0, frp.2)
              else (-(digitsToNat ed : Int), rest2.dropWhile digitChar)
            else if c2 == '+' then
              let ed := rest2.takeWhile digitChar
              if ed == [] then (0, frp.2) else ((digitsToNat ed : Int), rest2.dropWhile digitChar)
            else
              let ed := rest.takeWhile digitChar
              if ed == [] then (0, frp.2) else ((digitsToNat ed : Int), rest.dropWhile digitChar)
          | [] => (0, frp.2)
        else (0, frp.2)
      | [] => (0, frp.2)
    let mag : Nat := digitsToNat (ids ++ frp.1)
    let m : Int := if neg then -(mag : Int) else (mag : Int)
    let eAdj : Int := exp.1 - (frp.1.length : Int)
    let q : JNum :=
      if 0 ≤ eAdj then ⟨m * (10 : Int) ^ eAdj.toNat, 0⟩ else ⟨m, (-eAdj).toNat⟩
    some (q, exp.2)

/-- Parser modes: a single value, the items of an array after `[`, or the
members of an object after the opening brace (first item not yet read). -/
inductive PMode where
  | val
  | arrItems
  | objItems

/-- Recursive-descent JSON parser, structurally recursive on fuel so that
every equation reduces in the kernel.  Returns the parsed value and the
unconsumed rest. -/
def parseP : Nat → PMode → List Char → Option (JsonVal × List Char)
  | 0, _, _ => none
  | f + 1, .val, s =>
    let s1 := s.dropWhile jsonWs
    match s1 with
    | c :: rest =>
      if c == lbrace then
        let r2 := rest.dropWhile jsonWs
        match r2 with
        | c2 :: r3 => if c2 == rbrace then some (.obj [], r3) else parseP f .objItems r2
        | [] => none
      else if c == '[' then
        let r2 := rest.dropWhile jsonWs
        match r2 with
        | c2 :: r3 => if c2 == ']' then some (.arr [], r3) else parseP f .arrItems r2
        | [] => none
      else if c == '"' then
        (parseStrLit (rest.length + 1) rest).map fun pr => (.str pr.1, pr.2)
      else if c == 't' then
        (stripWord "true".data s1).map fun r => (.bool true, r)
      else if c == 'f' then
        (stripWord "false".data s1).map fun r => (.bool false, r)
      else if c == 'n' then
        (stripWord "null".data s1).map fun r => (.null, r)
      else if c == '-' || digitChar c then
        (parseNumLit s1).map fun pr => (.num pr.1, pr.2)
      else none
    | [] => none
  | f + 1, .arrItems, s =>
    match parseP f .val s with
    | some (v, r1) =>
      let r2 := r1.dropWhile jsonWs
      match r2 with
      | c :: r3 =>
        if c == ',' then
          match parseP f .arrItems r3 with
          | some (.arr vs, r4) => some (.arr (v :: vs), r4)
          | _ => none
        else if c == ']' then some (.arr [v], r3)
        else none
      | [] => none
    | none => none
  | f + 1, .objItems, s =>
    let s1 := s.dropWhile jsonWs
    match s1 with
    | c :: rest =>
      if c == '"' then
        match parseStrLit (rest.length + 1) rest with
        | some (k, r1) =>
          let r2 := r1.dropWhile jsonWs
          match r2 with
          | c2 :: r3 =>
            if c2 == ':' then
              match parseP f .val r3 with
              | some (v, r4) =>
                let r5 := r4.dropWhile jsonWs
                match r5 with
                | c3 :: r6 =>
                  if c3 == ',' then
                    match parseP f .objItems r6 with
                    | some (.obj kvs, r7) => some (.obj ((k, v) :: kvs), r7)
                    | _ => none
                  else if c3 == rbrace then some (.obj [(k, v)], r6)
                  else none
                | [] => none
              | none => none
            else none
          | [] => none
        | none => none
      else none
    | [] => none

/-- `JSON.parse`: parse one value and require only whitespace after it. -/
def jsonParse (s : List Char) : Option JsonVal :=
  match parseP (2 * s.length + 2) .val s with
  | some (v, rest) => if rest.dropWhile jsonWs == [] then some v else none
  | none => none

/-!
## Record mapping and filtering (fetchSchoolsNearAddress, lenient variant)

After `JSON.parse`, fetchSchoolsNearAddress checks `Array.isArray`, maps
each element to a school record with `item.field || default` fallbacks, and
filters the mapped records.  Property access `item.name` on `null` throws a
TypeError (caught and rethrown by the surrounding handler); on any other
non-object value it yields `undefined`.
-/

/-- JS truthiness of a JSON value (NaN cannot be produced by JSON.parse). -/
def jsTruthy (v : JsonVal) : Bool :=
  match v with
  | .null => false
  | .bool b => b
  | .num q => !(q.mant == 0)
  | .str s => !(s == [])
  | .arr _ => true
  | .obj _ => true

/-- Last binding wins, as in JS object literal construction. -/
def lookupLast (kvs : List (List Char × JsonVal)) (k : List Char) : Option JsonVal :=
  kvs.foldl (fun acc kv => if kv.1 == k then some kv.2 else acc) none

/-- Property access on a non-null value: a field of an object, `undefined`
(here `none`) otherwise. -/
def jsGet (v : JsonVal) (k : List Char) : Option JsonVal :=
  match v with
  | .obj kvs => lookupLast kvs k
  | _ => none

/-- Is the value JSON null? -/
def isNullV (v : JsonVal) : Bool :=
  match v with
  | .null => true
  | _ => false

/-- The school record built by the map step.  The TS interface types the
required fields as strings, but the JS mapping keeps whatever truthy value
the item carried, so the required fields are modelled as JSON values. -/
structure School where
  name : JsonVal
  address : JsonVal
  type : JsonVal
  studentCount : JNum
  phoneNumber : Option JsonVal
  principalName : Option JsonVal
  assistantName : Option JsonVal
  managerEmail : Option JsonVal
  assistantEmail : Option JsonVal

/-- The generated placeholder name `Unnamed School ${index + 1}`. -/
def unnamedSchool (idx : Nat) : List Char :=
  "Unnamed School ".data ++ (Nat.repr (idx + 1)).data

/-- Models `item.f || "default"`: the item's value when present and truthy,
the default string otherwise. -/
def orDefault (v : Option JsonVal) (d : List Char) : JsonVal :=
  match v with
  | some w => if jsTruthy w then w else .str d
  | none => .str d

/-- Models `item.f || undefined`: the value when truthy, absent otherwise. -/
def orUndefined (v : Option JsonVal) : Option JsonVal :=
  match v with
  | some w => if jsTruthy w then some w else none
  | none => none

/-- The map step of the lenient variant, for the element at index `idx`. -/
def mapItem (idx : Nat) (item : JsonVal) : School :=
  { name := orDefault (jsGet item "name".data) (unnamedSchool idx)
    address := orDefault (jsGet item "address".data) "Address not provided".data
    type := orDefault (jsGet item "type".data) "Type not specified".data
    studentCount :=
      match jsGet item "studentCount".data with
      | some (.num q) => q
      | _ => ⟨0, 0⟩
    phoneNumber := orUndefined (jsGet item "phoneNumber".data)
    principalName := orUndefined (jsGet item "principalName".data)
    assistantName := orUndefined (jsGet item "assistantName".data)
    managerEmail := orUndefined (jsGet item "managerEmail".data)
    assistantEmail := orUndefined (jsGet item "assistantEmail".data) }

/-- JS strict equality of a mapped value against a string literal: it can
only hold when the value is that very string. -/
def isStr (v : JsonVal) (t : List Char) : Bool :=
  match v with
  | .str s => s == t
  | _ => false

/-- The filter of the lenient variant:

  school.name && school.name !== `Unnamed School ${parsedData.indexOf(school) + 1}`
    && school.address && school.address !== "Address not provided"
    && school.type && school.type !== "Type not specified"

`parsedData.indexOf(school)` compares the freshly constructed record object
against the parsed array elements by reference; the record is a new object,
so the search always yields -1 and the compared template is the constant
string "Unnamed School 0". -/
def keepSchool (s : School) : Bool :=
  jsTruthy s.name && !(isStr s.name "Unnamed School 0".data) &&
  jsTruthy s.address && !(isStr s.address "Address not provided".data) &&
  jsTruthy s.type && !(isStr s.type "Type not specified".data)

/-- The map-then-filter of the lenient variant over the parsed array. -/
def lenientMap (items : List JsonVal) : List School :=
  (items.enum.map fun p => mapItem p.1 p.2).filter keepSchool

/-- The error taxonomy of the normalizer. -/
inductive NormErr where
  | emptyResponse
  | malformedJson (excerpt : List Char)
  | unexpectedShape
  | nullEntry

/-- The cleanup applied before `JSON.parse`: trim, fence strip, repair. -/
def cleanedText (s : List Char) : List Char := strayRepair (fenceStrip (jsTrim s))

/-- The whole normalization pipeline: the empty-response guard and
parseJsonFromGeminiResponse of fetchSchoolsNearAddress, followed by the
array-shape check and the lenient map/filter.  A null array element makes
the map step throw a TypeError (modelled as `nullEntry`); the JSON.parse
failure carries `jsonStr.substring(0, 150)` as its excerpt. -/
def normalize (s : List Char) : Except NormErr (List School) :=
  if s == [] then .error .emptyResponse
  else
    let c := cleanedText s
    match jsonParse c with
    | none => .error (.malformedJson (c.take 150))
    | some (.arr items) =>
      if items.any isNullV then .error .nullEntry
      else .ok (lenientMap items)
    | some _ => .error .unexpectedShape

/-!
## CSV export (convertToCSV of src/utils/csvExporter.ts)
-/

/-- Escape double quotes by doubling them. -/
def escapeQuotes (l : List Char) : List Char :=
  l.flatMap fun c => if c == '"' then ['"', '"'] else [c]

/-- Enclose a rendered cell in double quotes. -/
def quoteWrap (l : List Char) : List Char := '"' :: (l ++ ['"'])

/-- `Array.prototype.join(sep)` on already-rendered pieces. -/
def joinSep (sep : List Char) : List (List Char) → List Char
  | [] => []
  | [x] => x
  | x :: y :: ys => x ++ sep ++ joinSep sep (y :: ys)

/-- Strip common factors of 10 between the mantissa and the fractional
exponent (a JS number does not remember trailing fractional zeros). -/
def reduceNum : Nat → Nat → Nat × Nat
  | a, 0 => (a, 0)
  | a, f + 1 => if a % 10 == 0 then reduceNum (a / 10) f else (a, f + 1)

/-- `Number.prototype.toString` on a parsed number, for values in the plain
decimal range (no exponent notation; every value exercised here is a small
integer). -/
def jnumToChars (q : JNum) : List Char :=
  if q.fexp == 0 then (Int.repr q.mant).data
  else
    let sgn : List Char := if q.mant < 0 then ['-'] else []
    let p := reduceNum q.mant.natAbs q.fexp
    if p.2 == 0 then sgn ++ (Nat.repr p.1).data
    else
      let ip := p.1 / 10 ^ p.2
      let fp := p.1 % 10 ^ p.2
      let fpDigits := (Nat.repr fp).data
      sgn ++ (Nat.repr ip).data ++ '.' :: (List.replicate (p.2 - fpDigits.length) '0' ++ fpDigits)

/-- String coercion `'' + value`, with fuel for nested arrays. -/
def jsToStringF : Nat → JsonVal → List Char
  | 0, _ => []
  | _ + 1, .null => "null".data
  | _ + 1, .bool true => "true".data
  | _ + 1, .bool false => "false".data
  | _ + 1, .num q => jnumToChars q
  | _ + 1, .str s => s
  | f + 1, .arr xs =>
    joinSep [','] (xs.map fun x => if isNullV x then [] else jsToStringF f x)
  | _ + 1, .obj _ => "[object Object]".data

/-- String coercion `'' + value`.  The recursion is only through array
nesting; JS itself overflows its call stack at a few thousand levels, so a
large constant fuel models the same bound. -/
def jsToString (v : JsonVal) : List Char := jsToStringF 10000 v

/-- The fixed text used for a missing optional value. -/
def csvNotAvailable : List Char := "Not available".data

/-- One cell of a data row: `undefined`/`null` become the fixed placeholder,
any other value is coerced to text; the result is quote-escaped and
quote-enclosed. -/
def csvCell (v : Option JsonVal) : List Char :=
  match v with
  | none => quoteWrap (escapeQuotes csvNotAvailable)
  | some w =>
    if isNullV w then quoteWrap (escapeQuotes csvNotAvailable)
    else quoteWrap (escapeQuotes (jsToString w))

/-- The nine cells of a record's data row, in the fixed header order.
`studentCount` is a number in the record, so its cell is the rendered
number (the undefined/null branch cannot apply to it). -/
def csvCells (r : School) : List (List Char) :=
  [ csvCell (some r.name), csvCell (some r.address), csvCell (some r.type),
    quoteWrap (escapeQuotes (jnumToChars r.studentCount)),
    csvCell r.phoneNumber, csvCell r.principalName, csvCell r.assistantName,
    csvCell r.managerEmail, csvCell r.assistantEmail ]

/-- The fixed header labels, in order. -/
def csvLabels : List (List Char) :=
  [ "Name".data, "Address".data, "Type".data, "Student Count".data,
    "Phone Number".data, "Principal Name".data, "Assistant Name".data,
    "Manager Email".data, "Assistant Email".data ]

/-- The header row: the labels joined by commas (not quote-enclosed). -/
def headerRow : List Char := joinSep [','] csvLabels

/-- One data row: the nine cells joined by commas. -/
def dataRow (r : School) : List Char := joinSep [','] (csvCells r)

/-- convertToCSV: empty input gives the empty string, otherwise the header
row and one row per record, joined by newlines. -/
def convertToCSV (data : List School) : List Char :=
  if data.isEmpty then []
  else joinSep ['\n'] (headerRow :: data.map dataRow)

/-!
## Auxiliary predicates used by the claim statements
-/

/-- Is the parsed value an array? -/
def isArr (v : JsonVal) : Bool :=
  match v with
  | .arr _ => true
  | _ => false

/-- The number `mant / 10 ^ fexp` is a non-negative whole number. -/
def jnumNonnegWhole (q : JNum) : Prop :=
  0 ≤ q.mant ∧ ((10 : Int) ^ q.fexp) ∣ q.mant

instance (q : JNum) : Decidable (jnumNonnegWhole q) := by
  unfold jnumNonnegWhole
  infer_instance

/-- The studentCount field of an array element, when present and numeric,
is a non-negative whole number. -/
def itemCountOk (item : JsonVal) : Prop :=
  ∀ q : JNum, jsGet item "studentCount".data = some (.num q) → jnumNonnegWhole q

/-- All nine fields of the record are present (the five optionals hold a
value). -/
def fullyPopulated (r : School) : Prop :=
  r.phoneNumber.isSome ∧ r.principalName.isSome ∧ r.assistantName.isSome ∧
    r.managerEmail.isSome ∧ r.assistantEmail.isSome

/-- A sample record with all nine fields populated, used as the concrete
input of the CSV claims. -/
def sampleFullRecord : School :=
  { name := .str "Lincoln High".data, address := .str "1 Main St".data,
    type := .str "High School".data, studentCount := ⟨120, 0⟩,
    phoneNumber := some (.str "555-123-4567".data),
    principalName := some (.str "Dr. Jane Doe".data),
    assistantName := some (.str "Mr. John Smith".data),
    managerEmail := some (.str "office@example.edu".data),
    assistantEmail := some (.str "jsmith@example.edu".data) }

instance (r : School) : Decidable (fullyPopulated r) := by
  unfold fullyPopulated
  infer_instance

/-- Wrap a text in a whole-string fenced code block tagged `json`. -/
def wrapJson (t : List Char) : List Char :=
  (btick :: btick :: btick :: 'j' :: 's' :: 'o' :: 'n' :: '\n' :: []) ++ t ++
    ('\n' :: btick :: btick :: btick :: [])

/-- Wrap a text in an untagged whole-string fenced code block. -/
def wrapPlain (t : List Char) : List Char :=
  (btick :: btick :: btick :: '\n' :: []) ++ t ++ ('\n' :: btick :: btick :: btick :: [])

/-!
## Specification lemmas for the repair pass

Group 1 captures exactly the characters it consumes, and a successful tail
match consumes between one character and the whole rest.  Together these
show that every replacement strictly shortens the text.
-/

theorem stripWord_append : ∀ (w s r : List Char), stripWord w s = some r → s = w ++ r := by
  intro w
  induction w with
  | nil =>
    intro s r h
    simp only [stripWord, Option.some.injEq] at h
    simp [h]
  | cons c cs ih =>
    intro s r h
    cases s with
    | nil => simp [stripWord] at h
    | cons a as =>
      simp only [stripWord] at h
      by_cases hc : (a == c) = true
      · rw [if_pos hc] at h
        have ha : a = c := eq_of_beq hc
        have := ih as r h
        simp [ha, this]
      · rw [if_neg hc] at h
        cases h

theorem tryWord_append (p : Option Char) (w s g rest : List Char)
    (h : tryWord p w s = some (g, rest)) : s = g ++ rest := by
  unfold tryWord at h
  cases hs : stripWord w s with
  | none => rw [hs] at h; cases h
  | some r =>
    rw [hs] at h
    dsimp only [] at h
    by_cases hb : (boundaryBefore p && boundaryAfter r) = true
    · rw [if_pos hb] at h
      cases h
      exact stripWord_append w s rest hs
    · rw [if_neg hb] at h
      cases h

theorem matchLit_append (p : Option Char) (s g rest : List Char)
    (h : matchLit p s = some (g, rest)) : s = g ++ rest := by
  unfold matchLit at h
  cases h1 : tryWord p "true".data s with
  | some v =>
    rw [h1] at h
    simp only [Option.orElse] at h
    cases h
    exact tryWord_append _ _ _ _ _ h1
  | none =>
    rw [h1] at h
    simp only [Option.orElse] at h
    cases h2 : tryWord p "false".data s with
    | some v =>
      rw [h2] at h
      cases h
      exact tryWord_append _ _ _ _ _ h2
    | none =>
      rw [h2] at h
      exact tryWord_append _ _ _ _ _ h

theorem takeFrac_append (r : List Char) : (takeFrac r).1 ++ (takeFrac r).2 = r := by
  unfold takeFrac
  cases r with
  | nil => rfl
  | cons c rest =>
    by_cases hc : (c == '.') = true
    · simp only [hc, if_true]
      by_cases hf : (rest.takeWhile digitChar == []) = true
      · simp [hf]
      · simp only [hf, if_false]
        simp [List.takeWhile_append_dropWhile]
    · simp [hc]

theorem takeExp_append (r : List Char) : (takeExp r).1 ++ (takeExp r).2 = r := by
  unfold takeExp
  cases r with
  | nil => rfl
  | cons c rest =>
    by_cases hc : (c == 'e' || c == 'E') = true
    · simp only [hc, if_true]
      cases rest with
      | nil => rfl
      | cons c2 rest2 =>
        by_cases hs : (c2 == '+' || c2 == '-') = true
        · simp only [hs, if_true]
          by_cases he : (rest2.takeWhile digitChar == []) = true
          · simp [he]
          · simp only [he, if_false]
            simp [List.takeWhile_append_dropWhile]
        · simp only [hs, if_false]
          by_cases he : ((c2 :: rest2).takeWhile digitChar == []) = true
          · simp [he]
          · simp only [he, if_false]
            simp [List.takeWhile_append_dropWhile]
    · simp [hc]

theorem matchNum_append (s g rest : List Char)
    (h : matchNum s = some (g, rest)) : s = g ++ rest := by
  unfold matchNum at h
  by_cases hd : (s.takeWhile digitChar == []) = true
  · rw [if_pos hd] at h; cases h
  · rw [if_neg hd] at h
    simp only [Option.some.injEq, Prod.mk.injEq] at h
    obtain ⟨hg, hr⟩ := h
    subst hg hr
    calc s = s.takeWhile digitChar ++ s.dropWhile digitChar :=
          (List.takeWhile_append_dropWhile digitChar s).symm
    _ = s.takeWhile digitChar ++ ((takeFrac (s.dropWhile digitChar)).1 ++ (takeFrac (s.dropWhile digitChar)).2) := by
        rw [takeFrac_append]
    _ = s.takeWhile digitChar ++ ((takeFrac (s.dropWhile digitChar)).1 ++
          ((takeExp (takeFrac (s.dropWhile digitChar)).2).1 ++ (takeExp (takeFrac (s.dropWhile digitChar)).2).2)) := by
        rw [takeExp_append]
    _ = _ := by simp [List.append_assoc]

theorem matchStrGo_append_fuel :
    ∀ (n : Nat) (s a b : List Char), s.length ≤ n → matchStrGo s = some (a, b) → s = a ++ b := by
  intro n
  induction n with
  | zero =>
    intro s a b hlen h
    have : s = [] := List.length_eq_zero.mp (Nat.le_zero.mp hlen)
    subst this
    simp [matchStrGo] at h
  | succ n ih =>
    intro s a b hlen h
    cases s with
    | nil => simp [matchStrGo] at h
    | cons c rest =>
      unfold matchStrGo at h
      by_cases hq : (c == '"') = true
      · rw [if_pos hq] at h
        simp only [Option.some.injEq, Prod.mk.injEq] at h
        obtain ⟨ha, hb⟩ := h
        subst ha hb
        simp [eq_of_beq hq]
      · rw [if_neg hq] at h
        by_cases hbk : (c == '\\') = true
        · rw [if_pos hbk] at h
          cases rest with
          | nil => cases h
          | cons c2 rest2 =>
            dsimp only [] at h
            by_cases hlt : lineTerm c2 = true
            · rw [if_pos hlt] at h
              cases h
            · rw [if_neg hlt] at h
              cases hgo : matchStrGo rest2 with
              | none => rw [hgo] at h; cases h
              | some pr =>
                rw [hgo] at h
                simp only [Option.map_some', Option.some.injEq, Prod.mk.injEq] at h
                obtain ⟨ha, hb⟩ := h
                subst ha hb
                have hl : rest2.length ≤ n := by
                  simp only [List.length_cons] at hlen
                  omega
                have := ih rest2 pr.1 pr.2 hl (by rw [hgo])
                simp [this]
        · rw [if_neg hbk] at h
          cases hgo : matchStrGo rest with
          | none => rw [hgo] at h; cases h
          | some pr =>
            rw [hgo] at h
            simp only [Option.map_some', Option.some.injEq, Prod.mk.injEq] at h
            obtain ⟨ha, hb⟩ := h
            subst ha hb
            have hl : rest.length ≤ n := by
              simp only [List.length_cons] at hlen
              omega
            have := ih rest pr.1 pr.2 hl (by rw [hgo])
            simp [this]

theorem matchStrGo_append (s a b : List Char) (h : matchStrGo s = some (a, b)) : s = a ++ b :=
  matchStrGo_append_fuel s.length s a b (Nat.le_refl _) h

theorem matchStr_append (s g rest : List Char)
    (h : matchStr s = some (g, rest)) : s = g ++ rest := by
  unfold matchStr at h
  cases s with
  | nil => cases h
  | cons c r =>
    dsimp only [] at h
    by_cases hq : (c == '"') = true
    · rw [if_pos hq] at h
      cases hgo : matchStrGo r with
      | none => rw [hgo] at h; cases h
      | some pr =>
        rw [hgo] at h
        simp only [Option.map_some', Option.some.injEq, Prod.mk.injEq] at h
        obtain ⟨ha, hb⟩ := h
        subst ha hb
        have := matchStrGo_append r pr.1 pr.2 hgo
        simp [this]
    · rw [if_neg hq] at h
      cases h

theorem matchGroup1_append (p : Option Char) (s g rest : List Char)
    (h : matchGroup1 p s = some (g, rest)) : s = g ++ rest := by
  unfold matchGroup1 at h
  cases h1 : matchLit p s with
  | some v =>
    rw [h1] at h
    simp only [Option.orElse] at h
    cases h
    exact matchLit_append _ _ _ _ h1
  | none =>
    rw [h1] at h
    simp only [Option.orElse] at h
    cases h2 : matchNum s with
    | some v =>
      rw [h2] at h
      cases h
      exact matchNum_append _ _ _ h2
    | none =>
      rw [h2] at h
      exact matchStr_append _ _ _ h

theorem length_takeWhile_le' (p : Char → Bool) (l : List Char) :
    (l.takeWhile p).length ≤ l.length := by
  have h := congrArg List.length (List.takeWhile_append_dropWhile p l)
  rw [List.length_append] at h
  omega

theorem tailCheck_bounds {r : List Char} {i n t : Nat} (h : tailCheck r i n = some t) :
    i + n ≤ t ∧ t < r.length := by
  simp only [tailCheck] at h
  cases hh : ((r.drop (i + n)).drop ((r.drop (i + n)).takeWhile jsWs).length).head? with
  | none => rw [hh] at h; cases h
  | some c =>
    rw [hh] at h
    dsimp only [] at h
    by_cases hs : structChar c = true
    · rw [if_pos hs] at h
      injection h with ht
      subst ht
      refine ⟨by omega, ?_⟩
      have hne : (r.drop (i + n)).drop ((r.drop (i + n)).takeWhile jsWs).length ≠ [] := by
        intro he
        rw [he] at hh
        cases hh
      rw [List.drop_drop] at hne
      have hl : ¬ r.length ≤ i + n + ((r.drop (i + n)).takeWhile jsWs).length := fun hc =>
        hne (List.drop_eq_nil_iff.mpr hc)
      omega
    · rw [if_neg hs] at h
      cases h

theorem loopN_bounds {r : List Char} {i : Nat} :
    ∀ {m t : Nat}, loopN r i m = some t → 1 ≤ t ∧ t < r.length := by
  intro m
  induction m with
  | zero => intro t h; simp [loopN] at h
  | succ m ih =>
    intro t h
    unfold loopN at h
    cases hc : tailCheck r i (m + 1) with
    | some t2 =>
      rw [hc] at h
      injection h with ht
      subst ht
      have := tailCheck_bounds hc
      omega
    | none =>
      rw [hc] at h
      exact ih h

theorem loopW1_bounds {r : List Char} :
    ∀ {j t : Nat}, loopW1 r j = some t → 1 ≤ t ∧ t < r.length := by
  intro j
  induction j with
  | zero =>
    intro t h
    unfold loopW1 at h
    exact loopN_bounds h
  | succ j ih =>
    intro t h
    unfold loopW1 at h
    cases hc : loopN r (j + 1) (((r.drop (j + 1)).takeWhile nonAscii).length) with
    | some t2 =>
      rw [hc] at h
      injection h with ht
      subst ht
      exact loopN_bounds hc
    | none =>
      rw [hc] at h
      exact ih h

theorem matchTail_bounds {r : List Char} {t : Nat} (h : matchTail r = some t) :
    1 ≤ t ∧ t < r.length := loopW1_bounds h

theorem tryMatchAt_bounds {p : Option Char} {s g1 : List Char} {t : Nat}
    (h : tryMatchAt p s = some (g1, t)) : g1.length < t ∧ t ≤ s.length := by
  unfold tryMatchAt at h
  cases h1 : matchGroup1 p s with
  | none => rw [h1] at h; cases h
  | some pr =>
    obtain ⟨g, rest⟩ := pr
    rw [h1] at h
    dsimp only [] at h
    cases h2 : matchTail rest with
    | none => rw [h2] at h; cases h
    | some tl =>
      rw [h2] at h
      injection h with h3
      injection h3 with hg ht
      subst hg
      subst ht
      have hb := matchTail_bounds h2
      have happ := matchGroup1_append p s g rest h1
      have hlen : s.length = g.length + rest.length := by
        rw [happ, List.length_append]
      omega

theorem replacePassAux_spec :
    ∀ (f : Nat) (p : Option Char) (s : List Char), s.length ≤ f →
      (replacePassAux f p s).length ≤ s.length ∧
        (replacePassAux f p s = s ∨ (replacePassAux f p s).length < s.length) := by
  intro f
  induction f with
  | zero =>
    intro p s hlen
    have : s = [] := List.length_eq_zero.mp (Nat.le_zero.mp hlen)
    subst this
    simp [replacePassAux]
  | succ f ih =>
    intro p s hlen
    cases s with
    | nil => simp [replacePassAux]
    | cons c rest =>
      unfold replacePassAux
      cases hm : tryMatchAt p (c :: rest) with
      | none =>
        have hr : rest.length ≤ f := by
          simp only [List.length_cons] at hlen
          omega
        have hrec := ih (some c) rest hr
        constructor
        · simp only [List.length_cons]
          omega
        · cases hrec.2 with
          | inl he => left; rw [he]
          | inr hl =>
            right
            simp only [List.length_cons]
            omega
      | some pr =>
        obtain ⟨g1, t⟩ := pr
        have hb := tryMatchAt_bounds hm
        have hdl : ((c :: rest).drop t).length = (c :: rest).length - t :=
          List.length_drop t (c :: rest)
        have hr2 : ((c :: rest).drop t).length ≤ f := by
          simp only [List.length_cons] at *
          omega
        have hrec := ih (((c :: rest).take t).getLast?) ((c :: rest).drop t) hr2
        have hlen2 : (g1 ++ replacePassAux f (((c :: rest).take t).getLast?) ((c :: rest).drop t)).length
            < (c :: rest).length := by
          rw [List.length_append]
          simp only [List.length_cons] at *
          omega
        exact ⟨Nat.le_of_lt hlen2, Or.inr hlen2⟩

theorem replacePass_shorten (s : List Char) :
    replacePass s = s ∨ (replacePass s).length < s.length :=
  (replacePassAux_spec s.length none s (Nat.le_refl _)).2

theorem replacePass_ne_shorten {s : List Char} (h : replacePass s ≠ s) :
    (replacePass s).length < s.length := (replacePass_shorten s).resolve_left h

theorem repairAux_fuel :
    ∀ (f : Nat) (s : List Char), s.length < f → repairAux f s = strayRepair s := by
  intro f
  induction f using Nat.strong_induction_on with
  | _ f ih =>
    intro s h
    cases f with
    | zero => omega
    | succ f =>
      unfold strayRepair
      unfold repairAux
      by_cases he : (replacePass s == s) = true
      · simp [he]
      · simp only [he, Bool.false_eq_true, if_false]
        have hne : replacePass s ≠ s := fun hE => he (by rw [hE]; exact beq_self_eq_true s)
        have hlt := replacePass_ne_shorten hne
        rw [ih f (Nat.lt_succ_self f) (replacePass s) (by omega)]
        rw [ih s.length (by omega) (replacePass s) hlt]

theorem strayRepair_of_fix {s : List Char} (h : replacePass s = s) : strayRepair s = s := by
  unfold strayRepair repairAux
  simp [h]

theorem strayRepair_step {s : List Char} (h : replacePass s ≠ s) :
    strayRepair s = strayRepair (replacePass s) := by
  have hlt := replacePass_ne_shorten h
  unfold strayRepair
  conv_lhs => unfold repairAux
  have hbe : (replacePass s == s) = false := by
    rw [beq_eq_false_iff_ne]
    exact h
  simp only [hbe, Bool.false_eq_true, if_false]
  exact repairAux_fuel s.length (replacePass s) hlt

theorem strayRepair_fix_aux :
    ∀ (n : Nat) (s : List Char), s.length ≤ n →
      replacePass (strayRepair s) = strayRepair s := by
  intro n
  induction n with
  | zero =>
    intro s h
    have : s = [] := List.length_eq_zero.mp (Nat.le_zero.mp h)
    subst this
    rfl
  | succ n ih =>
    intro s h
    by_cases he : replacePass s = s
    · rw [strayRepair_of_fix he, he]
    · rw [strayRepair_step he]
      exact ih (replacePass s) (by have := replacePass_ne_shorten he; omega)

theorem strayRepair_fix (s : List Char) : replacePass (strayRepair s) = strayRepair s :=
  strayRepair_fix_aux s.length s (Nat.le_refl _)

theorem strayRepair_term_aux :
    ∀ (n : Nat) (s : List Char), s.length ≤ n →
      ∃ k, k ≤ s.length ∧ replacePass^[k] s = strayRepair s := by
  intro n
  induction n with
  | zero =>
    intro s h
    have : s = [] := List.length_eq_zero.mp (Nat.le_zero.mp h)
    subst this
    exact ⟨0, Nat.le_refl _, rfl⟩
  | succ n ih =>
    intro s h
    by_cases he : replacePass s = s
    · exact ⟨0, Nat.zero_le _, (strayRepair_of_fix he).symm⟩
    · have hlt := replacePass_ne_shorten he
      obtain ⟨k, hk, hit⟩ := ih (replacePass s) (by omega)
      refine ⟨k + 1, by omega, ?_⟩
      rw [Function.iterate_succ_apply, hit, strayRepair_step he]

theorem takeWhile_eq_nil_of_none {p : Char → Bool} {l : List Char}
    (h : ∀ c ∈ l, p c = false) : l.takeWhile p = [] := by
  cases l with
  | nil => rfl
  | cons c cs =>
    rw [List.takeWhile_cons]
    simp [h c (List.mem_cons_self c cs)]

theorem loopN_zero (r : List Char) (i : Nat) : loopN r i 0 = none := rfl

theorem loopW1_none_of_ascii {r : List Char} (h : ∀ c ∈ r, nonAscii c = false) :
    ∀ j, loopW1 r j = none := by
  intro j
  induction j with
  | zero =>
    unfold loopW1
    rw [takeWhile_eq_nil_of_none h]
    rfl
  | succ j ih =>
    unfold loopW1
    have hd : ∀ c ∈ r.drop (j + 1), nonAscii c = false := fun c hc =>
      h c (List.mem_of_mem_drop hc)
    rw [takeWhile_eq_nil_of_none hd]
    simpa [loopN_zero] using ih

theorem matchTail_none_of_ascii {r : List Char} (h : ∀ c ∈ r, nonAscii c = false) :
    matchTail r = none := loopW1_none_of_ascii h _

theorem tryMatchAt_none_of_ascii {p : Option Char} {s : List Char}
    (h : ∀ c ∈ s, nonAscii c = false) : tryMatchAt p s = none := by
  unfold tryMatchAt
  cases h1 : matchGroup1 p s with
  | none => rfl
  | some pr =>
    obtain ⟨g, rest⟩ := pr
    have happ := matchGroup1_append p s g rest h1
    have hrest : ∀ c ∈ rest, nonAscii c = false := fun c hc =>
      h c (by rw [happ]; exact List.mem_append.mpr (Or.inr hc))
    dsimp only []
    rw [matchTail_none_of_ascii hrest]

theorem replacePassAux_ascii :
    ∀ (f : Nat) (p : Option Char) (s : List Char),
      (∀ c ∈ s, nonAscii c = false) → replacePassAux f p s = s := by
  intro f
  induction f with
  | zero => intro p s _; rfl
  | succ f ih =>
    intro p s h
    cases s with
    | nil => rfl
    | cons c rest =>
      unfold replacePassAux
      rw [tryMatchAt_none_of_ascii h]
      have : ∀ c2 ∈ rest, nonAscii c2 = false := fun c2 hc =>
        h c2 (List.mem_cons_of_mem c hc)
      rw [ih (some c) rest this]

theorem replacePass_ascii {s : List Char} (h : ∀ c ∈ s, nonAscii c = false) :
    replacePass s = s := replacePassAux_ascii s.length none s h

/-- Claim C5: the stray-token repair terminates on every input: iterating
the replace pass reaches a fixed point of the pass within at most
`length s` iterations, so the do/while loop of parseJsonFromGeminiResponse
always exits and the repair is a total function. -/
theorem strayRepair_terminates (s : List Char) :
    ∃ k, k ≤ s.length ∧ replacePass^[k] s = strayRepair s ∧
      replacePass (strayRepair s) = strayRepair s := by
  obtain ⟨k, hk, hit⟩ := strayRepair_term_aux s.length s (Nat.le_refl _)
  exact ⟨k, hk, hit, strayRepair_fix s⟩

/-- Claim C6: the stray-token repair is idempotent: repairing an already
repaired text returns it unchanged. -/
theorem strayRepair_idem (s : List Char) :
    strayRepair (strayRepair s) = strayRepair s :=
  strayRepair_of_fix (strayRepair_fix s)

/-- Claim C10: the stray-token repair is the identity on every string of
ASCII characters: a match of the repair regex must contain a non-ASCII
character, so already-clean ASCII JSON text passes through unchanged. -/
theorem strayRepair_ascii_id (s : List Char) (h : ∀ c ∈ s, c.toNat ≤ 127) :
    strayRepair s = s := by
  have hna : ∀ c ∈ s, nonAscii c = false := by
    intro c hc
    have := h c hc
    simp only [nonAscii, decide_eq_false_iff_not]
    omega
  exact strayRepair_of_fix (replacePass_ascii hna)

/-- Witness for C10 at a concrete ASCII input. -/
theorem strayRepair_ascii_id_witness :
    (∀ c ∈ "[1, 2]".data, c.toNat ≤ 127) ∧ strayRepair "[1, 2]".data = "[1, 2]".data :=
  ⟨by decide, strayRepair_ascii_id "[1, 2]".data (by decide)⟩

/-!
## The normalizer on parse failures and non-array shapes
-/

theorem normalize_eq_parse (s : List Char) (hne : s ≠ []) :
    normalize s = (match jsonParse (cleanedText s) with
      | none => .error (.malformedJson ((cleanedText s).take 150))
      | some (.arr items) =>
        if items.any isNullV then .error .nullEntry else .ok (lenientMap items)
      | some _ => .error .unexpectedShape) := by
  unfold normalize
  have hbe : (s == []) = false := beq_eq_false_iff_ne.mpr hne
  simp only [hbe, Bool.false_eq_true, if_false]

/-- Claim C3 (amended): for every non-empty input whose cleaned text does
not parse as JSON, normalize fails with MalformedJson (no partial result)
carrying an excerpt of at most the first 150 characters of the cleaned
text, and the excerpt is non-empty whenever the cleaned text is non-empty.
(As stated, the claim fails on inputs whose cleaned text is empty: the
excerpt is then empty; see the counterexample.) -/
theorem normalize_malformedJson (s : List Char) (hne : s ≠ [])
    (h : jsonParse (cleanedText s) = none) :
    normalize s = .error (.malformedJson ((cleanedText s).take 150)) ∧
      ((cleanedText s).take 150).length ≤ 150 ∧
      (cleanedText s ≠ [] → (cleanedText s).take 150 ≠ []) := by
  refine ⟨?_, ?_, ?_⟩
  · rw [normalize_eq_parse s hne, h]
  · rw [List.length_take]
    exact Nat.min_le_left _ _
  · intro hc
    cases hcl : cleanedText s with
    | nil => exact absurd hcl hc
    | cons a as =>
      intro he
      rw [List.take_eq_nil_iff] at he
      cases he with
      | inl h1 => cases h1
      | inr h2 => cases h2

/-- Witness for C3 at the spec's example text. -/
theorem normalize_malformedJson_witness :
    "not json at all".data ≠ [] ∧ jsonParse (cleanedText "not json at all".data) = none ∧
      (normalize "not json at all".data =
          .error (.malformedJson ((cleanedText "not json at all".data).take 150)) ∧
        ((cleanedText "not json at all".data).take 150).length ≤ 150 ∧
        (cleanedText "not json at all".data ≠ [] →
          (cleanedText "not json at all".data).take 150 ≠ [])) :=
  ⟨by decide, by rfl, normalize_malformedJson "not json at all".data (by decide) (by rfl)⟩

/-- Counterexample to C3 as stated: the whitespace-only input has a cleaned
text (the empty string) that is not valid JSON, and normalize fails with a
MalformedJson whose excerpt is empty rather than non-empty. -/
theorem normalize_excerpt_empty_counterexample :
    jsonParse (cleanedText " ".data) = none ∧
      normalize " ".data = .error (.malformedJson []) :=
  ⟨rfl, rfl⟩

/-- Claim C7: when the cleaned text parses as JSON that is not an array (an
object or a scalar), normalize fails with UnexpectedShape and returns no
record list. -/
theorem normalize_unexpectedShape (s : List Char) (v : JsonVal)
    (h : jsonParse (cleanedText s) = some v) (hv : isArr v = false) :
    normalize s = .error .unexpectedShape := by
  have hne : s ≠ [] := by
    intro he
    subst he
    have h0 : jsonParse (cleanedText []) = none := rfl
    rw [h0] at h
    cases h
  rw [normalize_eq_parse s hne, h]
  cases v with
  | arr xs => simp [isArr] at hv
  | null => rfl
  | bool b => rfl
  | num q => rfl
  | str t => rfl
  | obj kvs => rfl

/-- Witness for C7 at the spec's example text. -/
theorem normalize_unexpectedShape_witness :
    jsonParse (cleanedText "\x7b\"not\":\"an array\"\x7d".data) =
        some (.obj [("not".data, .str "an array".data)]) ∧
      normalize "\x7b\"not\":\"an array\"\x7d".data = .error .unexpectedShape :=
  ⟨rfl, normalize_unexpectedShape "\x7b\"not\":\"an array\"\x7d".data
    (.obj [("not".data, .str "an array".data)]) rfl rfl⟩

/-!
## The lenient map/filter on required-field failures
-/

set_option maxRecDepth 8000 in
/-- Claim C1 (code bug): an array of two elements, the second lacking only
`name` and otherwise fully valid, normalizes without error to TWO records,
the second carrying the generated placeholder name "Unnamed School 2" — not
to one record as the claim states.  The filter's name test compares against
`Unnamed School ${parsedData.indexOf(school) + 1}`, and `indexOf` on the
freshly mapped record object is always -1, so the test compares against the
constant "Unnamed School 0" and never drops a placeholder-named entry. -/
theorem normalize_keeps_placeholder_name :
    normalize ("[\x7b\"name\":\"A\",\"address\":\"1 Main\",\"type\":\"Elementary School\",\"studentCount\":100\x7d,\x7b\"address\":\"2 Main\",\"type\":\"High School\",\"studentCount\":200\x7d]").data
      = .ok
        [ { name := .str "A".data, address := .str "1 Main".data,
            type := .str "Elementary School".data, studentCount := ⟨100, 0⟩,
            phoneNumber := none, principalName := none, assistantName := none,
            managerEmail := none, assistantEmail := none },
          { name := .str (unnamedSchool 1), address := .str "2 Main".data,
            type := .str "High School".data, studentCount := ⟨200, 0⟩,
            phoneNumber := none, principalName := none, assistantName := none,
            managerEmail := none, assistantEmail := none } ] ∧
      unnamedSchool 1 = "Unnamed School 2".data :=
  ⟨rfl, rfl⟩

/-- Counterexample to C2 as stated: a negative studentCount in the input is
copied into the returned record unchanged, so not every returned record has
a non-negative whole studentCount. -/
theorem normalize_negative_count_counterexample :
    normalize "[\x7b\"name\":\"A\",\"address\":\"B\",\"type\":\"C\",\"studentCount\":-5\x7d]".data
      = .ok
        [ { name := .str "A".data, address := .str "B".data, type := .str "C".data,
            studentCount := ⟨-5, 0⟩, phoneNumber := none, principalName := none,
            assistantName := none, managerEmail := none, assistantEmail := none } ] ∧
      ¬ jnumNonnegWhole ⟨-5, 0⟩ :=
  ⟨rfl, by decide⟩

/-- Claim C2 (amended): the map step copies a numeric studentCount without
any range or integrality check and defaults a missing or non-numeric one to
0; hence every record returned by the lenient map/filter carries a
non-negative whole studentCount provided every numeric studentCount present
in the input array is non-negative and whole. -/
theorem jnum_zero_ok : jnumNonnegWhole ⟨0, 0⟩ := by decide

theorem lenientMap_studentCount (items : List JsonVal)
    (h : ∀ item ∈ items, itemCountOk item) :
    ∀ r ∈ lenientMap items, jnumNonnegWhole r.studentCount := by
  intro r hr
  unfold lenientMap at hr
  have hr2 := List.mem_of_mem_filter hr
  obtain ⟨p, hp, hmap⟩ := List.mem_map.mp hr2
  have hitem : p.2 ∈ items := List.snd_mem_of_mem_enum hp
  rw [← hmap]
  show jnumNonnegWhole (mapItem p.1 p.2).studentCount
  unfold mapItem
  dsimp only []
  cases hg : jsGet p.2 "studentCount".data with
  | none => exact jnum_zero_ok
  | some v =>
    cases v with
    | num q => exact h p.2 hitem q hg
    | null => exact jnum_zero_ok
    | bool b => exact jnum_zero_ok
    | str t => exact jnum_zero_ok
    | arr xs => exact jnum_zero_ok
    | obj kvs => exact jnum_zero_ok

/-- Witness for C2 at a singleton array with studentCount 120. -/
theorem lenientMap_studentCount_witness :
    (∀ item ∈ [JsonVal.obj
        [("name".data, .str "A".data), ("address".data, .str "B".data),
         ("type".data, .str "C".data), ("studentCount".data, .num ⟨120, 0⟩)]],
      itemCountOk item) ∧
    ∀ r ∈ lenientMap [JsonVal.obj
        [("name".data, .str "A".data), ("address".data, .str "B".data),
         ("type".data, .str "C".data), ("studentCount".data, .num ⟨120, 0⟩)]],
      jnumNonnegWhole r.studentCount := by
  have hok : ∀ item ∈ [JsonVal.obj
      [("name".data, .str "A".data), ("address".data, .str "B".data),
       ("type".data, .str "C".data), ("studentCount".data, .num ⟨120, 0⟩)]],
      itemCountOk item := by
    intro item hi
    rw [List.mem_singleton] at hi
    subst hi
    intro q hq
    have he : jsGet (JsonVal.obj
        [("name".data, .str "A".data), ("address".data, .str "B".data),
         ("type".data, .str "C".data), ("studentCount".data, .num ⟨120, 0⟩)])
        "studentCount".data = some (.num ⟨120, 0⟩) := rfl
    rw [he] at hq
    injection hq with hv
    injection hv with hv2
    rw [← hv2]
    decide
  exact ⟨hok, lenientMap_studentCount _ hok⟩

/-!
## Fence stripping on wrapped texts
-/

theorem ltrim_ne_nil_of_jsTrim_ne_nil {t : List Char} (h : jsTrim t ≠ []) :
    t.dropWhile jsWs ≠ [] := by
  intro he
  apply h
  unfold jsTrim
  rw [he]
  rfl

theorem dropWhile_append_of_ne_nil {p : Char → Bool} {a : List Char} (b : List Char)
    (h : a.dropWhile p ≠ []) : (a ++ b).dropWhile p = a.dropWhile p ++ b := by
  rw [List.dropWhile_append]
  have he : (a.dropWhile p).isEmpty = false := by
    cases hh : a.dropWhile p with
    | nil => exact absurd hh h
    | cons x xs => rfl
  simp [he]

theorem stripEnd3Ticks_append (a : List Char) :
    stripEnd3Ticks (a ++ [btick, btick, btick]) = some a := by
  unfold stripEnd3Ticks
  rw [List.reverse_append]
  simp

theorem rtrimWs_append_newline (a : List Char) : rtrimWs (a ++ ['\n']) = rtrimWs a := by
  unfold rtrimWs
  rw [List.reverse_append]
  have hn : jsWs '\n' = true := by decide
  simp [List.dropWhile_cons, hn]

theorem fenceTail_wrap {t : List Char} (h : t.dropWhile jsWs ≠ []) :
    fenceTail ('\n' :: (t ++ ['\n', btick, btick, btick])) = some (jsTrim t) := by
  unfold fenceTail
  have h1 : ('\n' :: (t ++ ['\n', btick, btick, btick])).dropWhile jsWs
      = t.dropWhile jsWs ++ ['\n', btick, btick, btick] := by
    rw [List.dropWhile_cons]
    have hn : jsWs '\n' = true := by decide
    rw [if_pos hn]
    exact dropWhile_append_of_ne_nil _ h
  rw [h1]
  have h2 : t.dropWhile jsWs ++ ['\n', btick, btick, btick]
      = (t.dropWhile jsWs ++ ['\n']) ++ [btick, btick, btick] := by simp
  rw [h2, stripEnd3Ticks_append]
  dsimp only []
  rw [rtrimWs_append_newline]
  rfl

theorem startsWithJson_cons_ne {c : Char} (l : List Char) (h : (c == 'j') = false) :
    startsWithJson (c :: l) = false := by
  unfold startsWithJson
  cases l with
  | nil => rfl
  | cons b l2 =>
    cases l2 with
    | nil => rfl
    | cons c2 l3 =>
      cases l3 with
      | nil => rfl
      | cons d l4 => simp [h]

theorem fenceGroup_wrapJson {t : List Char} (h : t.dropWhile jsWs ≠ []) :
    fenceGroup (wrapJson t) = some (jsTrim t) := by
  have hw : wrapJson t = btick :: btick :: btick :: 'j' :: 's' :: 'o' :: 'n' :: '\n'
      :: (t ++ ['\n', btick, btick, btick]) := by
    unfold wrapJson
    simp
  rw [hw]
  unfold fenceGroup
  have hst : startsWith3Ticks (btick :: btick :: btick :: 'j' :: 's' :: 'o' :: 'n' :: '\n'
      :: (t ++ ['\n', btick, btick, btick])) = true := by
    simp [startsWith3Ticks]
  rw [if_pos hst]
  dsimp only []
  rw [show (btick :: btick :: btick :: 'j' :: 's' :: 'o' :: 'n' :: '\n'
      :: (t ++ ['\n', btick, btick, btick])).drop 3
      = 'j' :: 's' :: 'o' :: 'n' :: '\n' :: (t ++ ['\n', btick, btick, btick]) from rfl]
  have hsj : startsWithJson ('j' :: 's' :: 'o' :: 'n' :: '\n'
      :: (t ++ ['\n', btick, btick, btick])) = true := by
    simp [startsWithJson]
  rw [if_pos hsj]
  rw [show ('j' :: 's' :: 'o' :: 'n' :: '\n' :: (t ++ ['\n', btick, btick, btick])).drop 4
      = '\n' :: (t ++ ['\n', btick, btick, btick]) from rfl]
  rw [fenceTail_wrap h]

theorem fenceGroup_wrapPlain {t : List Char} (h : t.dropWhile jsWs ≠ []) :
    fenceGroup (wrapPlain t) = some (jsTrim t) := by
  have hw : wrapPlain t = btick :: btick :: btick :: '\n'
      :: (t ++ ['\n', btick, btick, btick]) := by
    unfold wrapPlain
    simp
  rw [hw]
  unfold fenceGroup
  have hst : startsWith3Ticks (btick :: btick :: btick :: '\n'
      :: (t ++ ['\n', btick, btick, btick])) = true := by
    simp [startsWith3Ticks]
  rw [if_pos hst]
  dsimp only []
  rw [show (btick :: btick :: btick :: '\n' :: (t ++ ['\n', btick, btick, btick])).drop 3
      = '\n' :: (t ++ ['\n', btick, btick, btick]) from rfl]
  have hsj : startsWithJson ('\n' :: (t ++ ['\n', btick, btick, btick])) = false :=
    startsWithJson_cons_ne _ (by decide)
  rw [if_neg (by simp [hsj] : ¬ startsWithJson ('\n' :: (t ++ ['\n', btick, btick, btick])) = true)]
  rw [fenceTail_wrap h]

theorem dropWhile_head_neg {p : Char → Bool} {c : Char} {l : List Char} (h : p c = false) :
    (c :: l).dropWhile p = c :: l := by
  rw [List.dropWhile_cons]
  simp [h]

theorem rtrimWs_snoc_neg {a : List Char} {c : Char} (h : jsWs c = false) :
    rtrimWs (a ++ [c]) = a ++ [c] := by
  unfold rtrimWs
  rw [List.reverse_append]
  have : ([c].reverse ++ a.reverse) = c :: a.reverse := by simp
  rw [this, dropWhile_head_neg h]
  simp

theorem jsTrim_wrapJson (t : List Char) : jsTrim (wrapJson t) = wrapJson t := by
  have hw : wrapJson t = btick :: btick :: btick :: 'j' :: 's' :: 'o' :: 'n' :: '\n'
      :: (t ++ ['\n', btick, btick, btick]) := by
    unfold wrapJson
    simp
  have hw2 : wrapJson t = (btick :: btick :: btick :: 'j' :: 's' :: 'o' :: 'n' :: '\n'
      :: (t ++ ['\n', btick, btick])) ++ [btick] := by
    unfold wrapJson
    simp
  have hb : jsWs btick = false := by decide
  unfold jsTrim
  conv_lhs => rw [hw]
  rw [dropWhile_head_neg hb, ← hw, hw2, rtrimWs_snoc_neg hb, ← hw2]

theorem jsTrim_wrapPlain (t : List Char) : jsTrim (wrapPlain t) = wrapPlain t := by
  have hw : wrapPlain t = btick :: btick :: btick :: '\n'
      :: (t ++ ['\n', btick, btick, btick]) := by
    unfold wrapPlain
    simp
  have hw2 : wrapPlain t = (btick :: btick :: btick :: '\n'
      :: (t ++ ['\n', btick, btick])) ++ [btick] := by
    unfold wrapPlain
    simp
  have hb : jsWs btick = false := by decide
  unfold jsTrim
  conv_lhs => rw [hw]
  rw [dropWhile_head_neg hb, ← hw, hw2, rtrimWs_snoc_neg hb, ← hw2]

theorem rtrimWs_idem (u : List Char) : rtrimWs (rtrimWs u) = rtrimWs u := by
  unfold rtrimWs
  rw [List.reverse_reverse, List.dropWhile_idempotent]

theorem dropWhile_rtrimWs {u : List Char} (hu : u.dropWhile jsWs = u) :
    (rtrimWs u).dropWhile jsWs = rtrimWs u := by
  have hB : u = rtrimWs u ++ (u.reverse.takeWhile jsWs).reverse := by
    calc u = u.reverse.reverse := (List.reverse_reverse u).symm
    _ = (u.reverse.takeWhile jsWs ++ u.reverse.dropWhile jsWs).reverse := by
        rw [List.takeWhile_append_dropWhile]
    _ = (u.reverse.dropWhile jsWs).reverse ++ (u.reverse.takeWhile jsWs).reverse := by
        rw [List.reverse_append]
    _ = rtrimWs u ++ (u.reverse.takeWhile jsWs).reverse := rfl
  cases hr : rtrimWs u with
  | nil => rfl
  | cons c cs =>
    rw [hr] at hB
    cases hjs : jsWs c with
    | false => exact dropWhile_head_neg hjs
    | true =>
      exfalso
      have hu2 := hu
      rw [hB] at hu2
      rw [show ((c :: cs) ++ (u.reverse.takeWhile jsWs).reverse)
          = c :: (cs ++ (u.reverse.takeWhile jsWs).reverse) from by simp] at hu2
      rw [List.dropWhile_cons, if_pos hjs] at hu2
      have hlen := congrArg List.length hu2
      have hle : (List.dropWhile jsWs (cs ++ (u.reverse.takeWhile jsWs).reverse)).length
          ≤ (cs ++ (u.reverse.takeWhile jsWs).reverse).length := by
        have h3 := congrArg List.length
          (List.takeWhile_append_dropWhile jsWs (cs ++ (u.reverse.takeWhile jsWs).reverse))
        rw [List.length_append] at h3
        omega
      rw [List.length_cons] at hlen
      omega

theorem jsTrim_idem (t : List Char) : jsTrim (jsTrim t) = jsTrim t := by
  unfold jsTrim
  rw [dropWhile_rtrimWs (List.dropWhile_idempotent (l := t) (p := jsWs)), rtrimWs_idem]

theorem fenceStrip_of_no_ticks {s : List Char} (h : startsWith3Ticks s = false) :
    fenceStrip s = s := by
  unfold fenceStrip fenceGroup
  rw [if_neg (by simp [h] : ¬ startsWith3Ticks s = true)]

theorem fenceStrip_wrapJson {t : List Char} (h : jsTrim t ≠ []) :
    fenceStrip (wrapJson t) = jsTrim t := by
  unfold fenceStrip
  rw [fenceGroup_wrapJson (ltrim_ne_nil_of_jsTrim_ne_nil h)]
  have hbe : (jsTrim t == []) = false := beq_eq_false_iff_ne.mpr h
  dsimp only []
  rw [hbe]
  simp only [Bool.false_eq_true, if_false]
  exact jsTrim_idem t

theorem fenceStrip_wrapPlain {t : List Char} (h : jsTrim t ≠ []) :
    fenceStrip (wrapPlain t) = jsTrim t := by
  unfold fenceStrip
  rw [fenceGroup_wrapPlain (ltrim_ne_nil_of_jsTrim_ne_nil h)]
  have hbe : (jsTrim t == []) = false := beq_eq_false_iff_ne.mpr h
  dsimp only []
  rw [hbe]
  simp only [Bool.false_eq_true, if_false]
  exact jsTrim_idem t

theorem cleanedText_wrapJson {t : List Char} (h : jsTrim t ≠ [])
    (hnf : startsWith3Ticks (jsTrim t) = false) :
    cleanedText (wrapJson t) = cleanedText t := by
  unfold cleanedText
  rw [jsTrim_wrapJson, fenceStrip_wrapJson h, fenceStrip_of_no_ticks hnf]

theorem cleanedText_wrapPlain {t : List Char} (h : jsTrim t ≠ [])
    (hnf : startsWith3Ticks (jsTrim t) = false) :
    cleanedText (wrapPlain t) = cleanedText t := by
  unfold cleanedText
  rw [jsTrim_wrapPlain, fenceStrip_wrapPlain h, fenceStrip_of_no_ticks hnf]

theorem stripEnd3Ticks_endsWith {l g : List Char} (h : stripEnd3Ticks l = some g) :
    endsWith3Ticks l = true := by
  unfold stripEnd3Ticks at h
  unfold endsWith3Ticks
  cases hl : l.reverse with
  | nil => rw [hl] at h; cases h
  | cons a r1 =>
    rw [hl] at h
    cases r1 with
    | nil =>
      dsimp only [] at h
      cases h
    | cons b r2 =>
      cases r2 with
      | nil =>
        dsimp only [] at h
        cases h
      | cons c r3 =>
        dsimp only [] at h
        dsimp only []
        by_cases hb : (a == btick && b == btick && c == btick) = true
        · exact hb
        · rw [if_neg hb] at h
          cases h

theorem endsWith3Ticks_append (u v : List Char) (h : endsWith3Ticks v = true) :
    endsWith3Ticks (u ++ v) = true := by
  unfold endsWith3Ticks at h ⊢
  rw [List.reverse_append]
  cases hv : v.reverse with
  | nil => rw [hv] at h; cases h
  | cons a r1 =>
    rw [hv] at h
    cases r1 with
    | nil =>
      dsimp only [] at h
      cases h
    | cons b r2 =>
      cases r2 with
      | nil =>
        dsimp only [] at h
        cases h
      | cons c r3 =>
        dsimp only [] at h
        rw [show (a :: b :: c :: r3) ++ u.reverse = a :: b :: c :: (r3 ++ u.reverse) from rfl]
        exact h

theorem endsWith3Ticks_of_drop {s : List Char} {k : Nat}
    (h : endsWith3Ticks (s.drop k) = true) : endsWith3Ticks s = true := by
  have h2 := endsWith3Ticks_append (s.take k) (s.drop k) h
  rwa [List.take_append_drop] at h2

theorem endsWith3Ticks_of_dropWhile {p : Char → Bool} {s : List Char}
    (h : endsWith3Ticks (s.dropWhile p) = true) : endsWith3Ticks s = true := by
  have h2 := endsWith3Ticks_append (s.takeWhile p) (s.dropWhile p) h
  rwa [List.takeWhile_append_dropWhile] at h2

theorem fenceTail_none_of_no_end {x : List Char} (h : endsWith3Ticks x = false) :
    fenceTail x = none := by
  unfold fenceTail
  cases hs : stripEnd3Ticks (x.dropWhile jsWs) with
  | none => rfl
  | some core =>
    exfalso
    have h1 : endsWith3Ticks (x.dropWhile jsWs) = true := stripEnd3Ticks_endsWith hs
    have h2 : endsWith3Ticks x = true := endsWith3Ticks_of_dropWhile h1
    rw [h] at h2
    cases h2

theorem fenceGroup_none_of_no_end {s : List Char} (h : endsWith3Ticks s = false) :
    fenceGroup s = none := by
  unfold fenceGroup
  by_cases hst : startsWith3Ticks s = true
  · rw [if_pos hst]
    dsimp only []
    have e3 : endsWith3Ticks (s.drop 3) = false := by
      cases he : endsWith3Ticks (s.drop 3) with
      | false => rfl
      | true =>
        have h2 := endsWith3Ticks_of_drop he
        rw [h] at h2
        cases h2
    have e7 : endsWith3Ticks ((s.drop 3).drop 4) = false := by
      cases he : endsWith3Ticks ((s.drop 3).drop 4) with
      | false => rfl
      | true =>
        have h2 := endsWith3Ticks_of_drop (endsWith3Ticks_of_drop he)
        rw [h] at h2
        cases h2
    by_cases hj : startsWithJson (s.drop 3) = true
    · rw [if_pos hj, fenceTail_none_of_no_end e7]
      exact fenceTail_none_of_no_end e3
    · rw [if_neg hj]
      exact fenceTail_none_of_no_end e3
  · rw [if_neg hst]

theorem fenceStrip_of_no_end_ticks {s : List Char} (h : endsWith3Ticks s = false) :
    fenceStrip s = s := by
  unfold fenceStrip
  rw [fenceGroup_none_of_no_end h]

/-- Claim C4 (amended): (i) wrapping a text in a whole-string fenced code
block (tagged `json` or untagged) does not change the result of normalize,
provided the trimmed text is non-empty and does not itself begin with a
fence marker; and (ii) the match is anchored: whenever the trimmed text
does not both start and end with three backticks — i.e. any fence marker
present does not span the entire trimmed string — the stripping step
leaves the trimmed text untouched.  As stated the claim fails: the
stripping is applied only once, so a text that is itself fence-wrapped
parses after unwrapping but its doubly-fenced form does not (see the
counterexample); and an all-whitespace text captures an empty group, which
the guard leaves unstripped, changing the error excerpt. -/
theorem normalize_fenced_eq (t : List Char) (hne : jsTrim t ≠ [])
    (hnf : startsWith3Ticks (jsTrim t) = false) :
    (normalize (wrapJson t) = normalize t ∧ normalize (wrapPlain t) = normalize t) ∧
      ∀ u : List Char,
        startsWith3Ticks (jsTrim u) = false ∨ endsWith3Ticks (jsTrim u) = false →
          fenceStrip (jsTrim u) = jsTrim u := by
  refine ⟨?_, ?_⟩
  · have htne : t ≠ [] := fun he => hne (by rw [he]; rfl)
    have hwne : wrapJson t ≠ [] := by simp [wrapJson]
    have hpne : wrapPlain t ≠ [] := by simp [wrapPlain]
    constructor
    · rw [normalize_eq_parse _ hwne, normalize_eq_parse _ htne, cleanedText_wrapJson hne hnf]
    · rw [normalize_eq_parse _ hpne, normalize_eq_parse _ htne, cleanedText_wrapPlain hne hnf]
  · intro u hu
    cases hu with
    | inl h1 => exact fenceStrip_of_no_ticks h1
    | inr h2 => exact fenceStrip_of_no_end_ticks h2

/-- Witness for C4: the wrap-equivalence at the text of a small JSON array,
and the untouched clause at a text with a leading fence marker and no
closing one. -/
theorem normalize_fenced_eq_witness :
    jsTrim "[1, 2]".data ≠ [] ∧ startsWith3Ticks (jsTrim "[1, 2]".data) = false ∧
      (normalize (wrapJson "[1, 2]".data) = normalize "[1, 2]".data ∧
        normalize (wrapPlain "[1, 2]".data) = normalize "[1, 2]".data) ∧
      endsWith3Ticks (jsTrim "```json\n[1]".data) = false ∧
      fenceStrip (jsTrim "```json\n[1]".data) = jsTrim "```json\n[1]".data :=
  ⟨by decide, by decide,
    (normalize_fenced_eq "[1, 2]".data (by decide) (by decide)).1,
    by decide,
    (normalize_fenced_eq "[1, 2]".data (by decide) (by decide)).2
      "```json\n[1]".data (Or.inr (by decide))⟩

/-- Counterexample to C4 as stated: for the text that is itself a fenced
block, normalize of the doubly-wrapped form fails with MalformedJson while
normalize of the text itself succeeds, so fencing is not always
semantics-preserving. -/
theorem normalize_fenced_counterexample :
    normalize (wrapJson "```json\n[1]\n```".data) =
        .error (.malformedJson "```json\n[1]\n```".data) ∧
      normalize "```json\n[1]\n```".data = .ok [] ∧
      normalize (wrapJson "```json\n[1]\n```".data) ≠ normalize "```json\n[1]\n```".data := by
  refine ⟨rfl, rfl, ?_⟩
  intro h
  have h1 : normalize (wrapJson "```json\n[1]\n```".data) =
      .error (.malformedJson "```json\n[1]\n```".data) := rfl
  have h2 : normalize "```json\n[1]\n```".data = .ok [] := rfl
  rw [h1, h2] at h
  exact Except.noConfusion h

/-!
## CSV export shape
-/

theorem convertToCSV_singleton (r : School) :
    convertToCSV [r] = headerRow ++ '\n' :: dataRow r := rfl

theorem csvCell_quoted (v : Option JsonVal) : ∃ e, csvCell v = quoteWrap e := by
  unfold csvCell
  cases v with
  | none => exact ⟨escapeQuotes csvNotAvailable, rfl⟩
  | some w =>
    dsimp only []
    by_cases hn : isNullV w = true
    · rw [if_pos hn]
      exact ⟨escapeQuotes csvNotAvailable, rfl⟩
    · rw [if_neg hn]
      exact ⟨escapeQuotes (jsToString w), rfl⟩

theorem csvCells_quoted (r : School) : ∀ c ∈ csvCells r, ∃ e, c = quoteWrap e := by
  intro c hc
  unfold csvCells at hc
  simp only [List.mem_cons, List.not_mem_nil, or_false] at hc
  rcases hc with h | h | h | h | h | h | h | h | h <;> subst h
  · exact csvCell_quoted _
  · exact csvCell_quoted _
  · exact csvCell_quoted _
  · exact ⟨escapeQuotes (jnumToChars r.studentCount), rfl⟩
  · exact csvCell_quoted _
  · exact csvCell_quoted _
  · exact csvCell_quoted _
  · exact csvCell_quoted _
  · exact csvCell_quoted _

/-- Claim C8 (amended): toCsv of the empty list is the empty string, and
toCsv of a singleton fully-populated record is the fixed header row — nine
comma-separated plain (NOT quote-enclosed) labels — followed by a newline
and one data row of nine comma-separated double-quote-enclosed fields.  As
stated the claim fails because the header labels are not quote-enclosed;
see the counterexample. -/
theorem convertToCSV_shape (r : School) (_h : fullyPopulated r) :
    convertToCSV ([] : List School) = [] ∧
      convertToCSV [r] = headerRow ++ '\n' :: joinSep [','] (csvCells r) ∧
      headerRow = joinSep [','] csvLabels ∧ csvLabels.length = 9 ∧
      (csvCells r).length = 9 ∧ (∀ c ∈ csvCells r, ∃ e, c = quoteWrap e) := by
  refine ⟨rfl, ?_, rfl, rfl, rfl, csvCells_quoted r⟩
  rw [convertToCSV_singleton]
  rfl

/-- Witness for C8 at the sample record. -/
theorem convertToCSV_shape_witness :
    fullyPopulated sampleFullRecord ∧
      (convertToCSV ([] : List School) = [] ∧
        convertToCSV [sampleFullRecord] =
          headerRow ++ '\n' :: joinSep [','] (csvCells sampleFullRecord) ∧
        headerRow = joinSep [','] csvLabels ∧ csvLabels.length = 9 ∧
        (csvCells sampleFullRecord).length = 9 ∧
        (∀ c ∈ csvCells sampleFullRecord, ∃ e, c = quoteWrap e)) :=
  ⟨by decide, convertToCSV_shape sampleFullRecord (by decide)⟩

theorem joinSep_quoteWrap_append_head (sep f : List Char) (rest : List (List Char))
    (c : List Char) :
    ((joinSep sep (quoteWrap f :: rest)) ++ c).head? = some '"' := by
  cases rest with
  | nil => rfl
  | cons y ys => rfl

/-- Counterexample to C8 as stated: the header row of the CSV for one
fully-populated record does not consist of quote-enclosed fields — its
first character is the letter N of "Name", while any comma-join of nine
quote-enclosed fields starts with a double quote. -/
theorem convertToCSV_header_unquoted_counterexample :
    fullyPopulated sampleFullRecord ∧
      ¬ ∃ fs : List (List Char), fs.length = 9 ∧
        convertToCSV [sampleFullRecord] =
          joinSep [','] (fs.map quoteWrap) ++ '\n' :: dataRow sampleFullRecord := by
  refine ⟨by decide, ?_⟩
  rintro ⟨fs, hlen, heq⟩
  cases fs with
  | nil => cases hlen
  | cons f rest =>
    have h1 := congrArg List.head? heq
    have hL : (convertToCSV [sampleFullRecord]).head? = some 'N' := rfl
    rw [hL, List.map_cons, joinSep_quoteWrap_append_head] at h1
    injection h1 with h2
    cases h2

/-- Claim C9: for every record whose phoneNumber is absent, the fifth cell
of the single data row produced by toCsv is the quote-enclosed placeholder
text "Not available", not an empty cell. -/
theorem convertToCSV_missing_phone (r : School) (h : r.phoneNumber = none) :
    convertToCSV [r] = headerRow ++ '\n' :: joinSep [','] (csvCells r) ∧
      (csvCells r)[4]? = some (quoteWrap "Not available".data) ∧
      quoteWrap "Not available".data ≠ quoteWrap [] := by
  refine ⟨?_, ?_, by decide⟩
  · rw [convertToCSV_singleton]
    rfl
  · unfold csvCells
    rw [h]
    rfl

/-- Witness for C9 at a record lacking phoneNumber. -/
theorem convertToCSV_missing_phone_witness :
    { sampleFullRecord with phoneNumber := none }.phoneNumber = none ∧
      (convertToCSV [{ sampleFullRecord with phoneNumber := none }] =
          headerRow ++ '\n' :: joinSep [','] (csvCells { sampleFullRecord with phoneNumber := none }) ∧
        (csvCells { sampleFullRecord with phoneNumber := none })[4]? =
          some (quoteWrap "Not available".data) ∧
        quoteWrap "Not available".data ≠ quoteWrap []) :=
  ⟨rfl, convertToCSV_missing_phone { sampleFullRecord with phoneNumber := none } rfl⟩

end SchoolExtractor
